import Mathlib

/-
Verification development for the `ex2` blockchain node.

Shallow embedding of `src/ex2/block.py`, `src/ex2/node.py` and
`src/ex2/virtual_blockchain.py`.  The repository files `transaction.py`
and `utils.py` (the `Transaction` class, `BLOCK_SIZE`,
`GENESIS_BLOCK_PREV` and the crypto adapter `gen_keys`/`sign`/`verify`)
are not part of the sources; those pieces are modelled from the spec and
each such definition is marked `Modelled from the spec:` below.

Conventions of the embedding:
- `BlockHash`, `TxID`, `PublicKey`, `PrivateKey`, `Signature` are all
  opaque byte strings in the code; they are modelled as `Nat`.
- SHA-256 (used by `Block.get_block_hash` via `hashlib`, an external
  library) is modelled as an injective encoding into `Nat` built from
  `Nat.pair`; `GENESIS_BLOCK_PREV` is `0` and every block hash is
  positive, so the genesis sentinel never collides with a block hash.
- Python exceptions escaping a function are modelled by an `Option`
  result (`none` = the call raised); loops whose termination depends on
  data supplied by a peer take an explicit fuel argument, and running
  out of fuel is mapped to `none` as well (a Python run that terminates
  normally is reproduced by any sufficiently large fuel).
- The gossip side effects (`notify_of_block` / `add_transaction_to_mempool`
  fan-out to every neighbour) are modelled as an emitted list of `Msg`
  values: one `Msg` stands for the broadcast of that message to every
  neighbour of the node.
-/

namespace Ex2

/-- Modelled from the spec: `GenesisPrev`, "a fixed sentinel hash denoting
no previous block" (`GENESIS_BLOCK_PREV` lives in the missing `utils.py`). -/
def GENESIS_BLOCK_PREV : Nat := 0

/-- Modelled from the spec: `BLOCK_SIZE` is "a fixed positive integer
(typical 10)" (it lives in the missing `utils.py`). -/
def BLOCK_SIZE : Nat := 10

/-- Encoding of an `Option Nat` into `Nat`, used to render optional fields
(Python `None` versus a present value) injectively. -/
def encodeOpt : Option Nat → Nat
  | none => 0
  | some n => n + 1

/-- Modelled from the spec: the crypto adapter's `sign` ("non-deterministic"
only through key generation; the signature is a function of message and
key here).  `+ 1` keeps signatures nonzero, i.e. "present" as bytes. -/
def sign (msg sk : Nat) : Nat := Nat.pair msg sk + 1

/-- Modelled from the spec: the crypto adapter's `verify`, deterministic,
accepting exactly the signatures produced by `sign` under the matching
key.  Key pairs are modelled as `(sk, pk)` with `pk = sk`. -/
def verify (msg sig pk : Nat) : Bool := sig == Nat.pair msg pk + 1

/-- Modelled from the spec: a `Transaction` (the class lives in the missing
`transaction.py`): `output` recipient key, optional `input` TxID,
`signature`, and the `input_tx` rollback back-reference ("a back-reference
to the Transaction this one spends, or null for coinbase"). -/
inductive Transaction : Type where
  | mk (output : Nat) (input : Option Nat) (signature : Nat)
       (input_tx : Option Transaction)

/-- Boolean structural equality on transactions (recursing through the
`input_tx` back-reference). -/
def Transaction.beq : Transaction → Transaction → Bool
  | .mk o1 i1 s1 none, .mk o2 i2 s2 none =>
      o1 == o2 && i1 == i2 && s1 == s2
  | .mk o1 i1 s1 (some t1), .mk o2 i2 s2 (some t2) =>
      o1 == o2 && i1 == i2 && s1 == s2 && Transaction.beq t1 t2
  | _, _ => false

theorem Transaction.beq_iff : ∀ (a b : Transaction),
    Transaction.beq a b = true ↔ a = b
  | .mk o1 i1 s1 none, .mk o2 i2 s2 none => by
      simp [Transaction.beq, and_assoc]
  | .mk o1 i1 s1 none, .mk o2 i2 s2 (some t2) => by
      simp [Transaction.beq]
  | .mk o1 i1 s1 (some t1), .mk o2 i2 s2 none => by
      simp [Transaction.beq]
  | .mk o1 i1 s1 (some t1), .mk o2 i2 s2 (some t2) => by
      simp [Transaction.beq, Transaction.beq_iff t1 t2, and_assoc]

instance : DecidableEq Transaction := fun a b =>
  decidable_of_iff _ (Transaction.beq_iff a b)

/-- Recipient public key of the transaction. -/
def Transaction.output : Transaction → Nat
  | .mk o _ _ _ => o

/-- Optional TxID of the spent output (`None` for a coinbase). -/
def Transaction.input : Transaction → Option Nat
  | .mk _ i _ _ => i

/-- Signature field of the transaction. -/
def Transaction.signature : Transaction → Nat
  | .mk _ _ s _ => s

/-- Rollback back-reference to the spent transaction. -/
def Transaction.input_tx : Transaction → Option Transaction
  | .mk _ _ _ it => it

/-- Modelled from the spec: `txid` is "hash over the transaction's
canonical fields"; `input_tx` "is not part of the wire/hash image".
The hash is modelled as an injective pairing of the three fields. -/
def Transaction.get_txid (t : Transaction) : Nat :=
  Nat.pair t.output (Nat.pair (encodeOpt t.input) t.signature)

/-- `build_tx_message` of `node.py`/`virtual_blockchain.py`: the canonical
spend message `{"input": str(input), "output": str(output)}` serialized
with sorted keys; modelled as an injective pairing of the two fields. -/
def build_tx_message (t : Transaction) : Nat :=
  Nat.pair (encodeOpt t.input) t.output

/-- `Block` of `block.py`: previous block hash plus the ordered
transaction list. -/
structure Block where
  prev_block_hash : Nat
  transactions : List Transaction
deriving DecidableEq

/-- Full encoding of a transaction including its `input_tx` chain: the
JSON serialization in `Block.__toJson` walks `__dict__` recursively, so
the block image covers `input_tx` as well. -/
def encTx : Transaction → Nat
  | .mk o i s none => Nat.pair 0 (Nat.pair o (Nat.pair (encodeOpt i) s))
  | .mk o i s (some t) =>
      Nat.pair (encTx t + 1) (Nat.pair o (Nat.pair (encodeOpt i) s))

/-- Injective encoding of a transaction list into `Nat`. -/
def encTxList : List Transaction → Nat
  | [] => 0
  | t :: ts => Nat.pair (encTx t) (encTxList ts) + 1

/-- `Block.get_block_hash` of `block.py`: SHA-256 over the canonical
serialization; the digest is modelled as an injective positive encoding
(`+ 1` keeps it distinct from `GENESIS_BLOCK_PREV = 0`). -/
def Block.get_block_hash (b : Block) : Nat :=
  Nat.pair b.prev_block_hash (encTxList b.transactions) + 1

/-- Shared helper for `Node.__update_utxo_with_block` and
`VirtualBlockchain.update_utxo_with_block` (the two bodies are identical
in the source): extend the utxo with the block's transactions, then drop
every entry whose txid occurs in the block's input list. -/
def updateUtxoList (utxo : List Transaction) (b : Block) : List Transaction :=
  (utxo ++ b.transactions).filter
    (fun u => !((b.transactions.map Transaction.input).contains (some u.get_txid)))

/-- `VirtualBlockchain.__init__`: the virtual copy of the node state used
by a reorg attempt, plus the working lists of the attempt. -/
structure VirtualBlockchain where
  blockchain : List Block
  utxo : List Transaction
  new_chain : List Block
  old_chain : List Block
  deleted_txs : List Transaction
deriving DecidableEq

/-- `VirtualBlockchain.get_block`: first block of the chain with the given
hash; `none` models the `ValueError` raised when no block matches. -/
def findBlock (chain : List Block) (h : Nat) : Option Block :=
  chain.find? (fun b => b.get_block_hash == h)

/-- `VirtualBlockchain.is_known_block`: the genesis sentinel or any hash
occurring in the local chain. -/
def isKnownHash (chain : List Block) (h : Nat) : Bool :=
  h == GENESIS_BLOCK_PREV || chain.any (fun b => b.get_block_hash == h)

/-- Ancestry-walk loop of `VirtualBlockchain.get_split_hash`: starting
from hash `h`, fetch unknown blocks from the sender and follow
`prev_block_hash` until a known hash is reached.  `none` models both a
failed fetch (the sender's `get_block` raised) and a walk that never
reaches a known hash (fuel exhaustion; in Python such a walk does not
terminate). -/
def getSplitGo (chain : List Block) (sender : Nat → Option Block) :
    Nat → Nat → List Block → Option (Nat × List Block)
  | fuel, h, acc =>
    if isKnownHash chain h then some (h, acc)
    else
      match fuel with
      | 0 => none
      | f + 1 =>
        match sender h with
        | none => none
        | some b => getSplitGo chain sender f b.prev_block_hash (acc ++ [b])

/-- `VirtualBlockchain.get_split_hash`: on success the collected candidate
blocks are reversed into split→tip order; on failure `new_chain` is
cleared and `None` is returned. -/
def VirtualBlockchain.get_split_hash (vb : VirtualBlockchain) (h : Nat)
    (sender : Nat → Option Block) (fuel : Nat) :
    Option Nat × VirtualBlockchain :=
  match getSplitGo vb.blockchain sender fuel h vb.new_chain with
  | none => (none, { vb with new_chain := [] })
  | some (split, acc) => (some split, { vb with new_chain := acc.reverse })

/-- Walk loop of `VirtualBlockchain.compute_old_chain_until`: from the
local tip, collect blocks until reaching the split hash or a block whose
`prev_block_hash` is the genesis sentinel.  The walk follows
`prev_block_hash` through `get_block` on the local chain; a missing
block models the uncaught `ValueError` (and fuel exhaustion models a
non-terminating walk), both yielding `none`. -/
def computeOldGo (chain : List Block) (split : Nat) :
    Nat → Block → List Block → Option (List Block)
  | fuel, cur, acc =>
    if cur.prev_block_hash == GENESIS_BLOCK_PREV || cur.get_block_hash == split then
      some acc
    else
      match fuel with
      | 0 => none
      | f + 1 =>
        match findBlock chain cur.prev_block_hash with
        | none => none
        | some nxt => computeOldGo chain split f nxt (acc ++ [cur])

/-- `VirtualBlockchain.compute_old_chain_until`: no-op on an empty chain;
otherwise run the tip-to-split walk.  A terminating Python walk visits
pairwise distinct blocks, so fuel `blockchain.length` suffices for it. -/
def VirtualBlockchain.compute_old_chain_until (vb : VirtualBlockchain)
    (split : Nat) : Option VirtualBlockchain :=
  match vb.blockchain.getLast? with
  | none => some vb
  | some tip =>
    match computeOldGo vb.blockchain split vb.blockchain.length tip vb.old_chain with
    | none => none
    | some oc => some { vb with old_chain := oc }

/-- `VirtualBlockchain.is_transaction_valid`: falsy output or signature
fails; a coinbase (no input) passes; a spend needs its input txid among
the utxo and a signature verifying against that entry's output key. -/
def VirtualBlockchain.is_transaction_valid (vb : VirtualBlockchain)
    (t : Transaction) : Bool :=
  if t.output == 0 || t.signature == 0 then false
  else
    match t.input with
    | none => true
    | some i =>
      match vb.utxo.find? (fun u => u.get_txid == i) with
      | none => false
      | some u => verify (build_tx_message t) t.signature u.output

/-- `VirtualBlockchain.validate_block`: at most `BLOCK_SIZE` transactions,
every spend valid against the current virtual utxo, and exactly one
coinbase. -/
def VirtualBlockchain.validate_block (vb : VirtualBlockchain) (b : Block) : Bool :=
  if b.transactions.length > BLOCK_SIZE then false
  else if b.transactions.any
      (fun t => t.input != none && !(vb.is_transaction_valid t)) then false
  else (b.transactions.filter (fun t => t.input == none)).length == 1

/-- Removal of the first occurrence of a block, the semantics of Python's
`list.remove` (which additionally raises when the block is absent; in
`attempt_reorg` the removed block is always present). -/
def removeFirst : List Block → Block → List Block
  | [], _ => []
  | x :: xs, b => if x = b then xs else x :: removeFirst xs b

/-- Single-transaction step of `VirtualBlockchain.rollback_block`: drop
from the utxo the cancelled transaction and anything spending it, then
restore the cancelled transaction's `input_tx` when present. -/
def rollbackTxStep (utxo : List Transaction) (canceled : Transaction) :
    List Transaction :=
  let u' := utxo.filter
    (fun t => !(t.get_txid == canceled.get_txid)
              && !(t.input == some canceled.get_txid))
  match canceled.input_tx with
  | none => u'
  | some it => u' ++ [it]

/-- `VirtualBlockchain.rollback_block`: apply the per-transaction rollback
step for every transaction of the block, then remove the block from the
virtual chain. -/
def VirtualBlockchain.rollback_block (vb : VirtualBlockchain) (b : Block) :
    VirtualBlockchain :=
  { vb with utxo := b.transactions.foldl rollbackTxStep vb.utxo,
            blockchain := removeFirst vb.blockchain b }

/-- `VirtualBlockchain.update_utxo_with_block` on the virtual state. -/
def VirtualBlockchain.update_utxo_with_block (vb : VirtualBlockchain)
    (b : Block) : VirtualBlockchain :=
  { vb with utxo := updateUtxoList vb.utxo b }

/-- `VirtualBlockchain.process_block`: validate, and on success append the
block and update the virtual utxo. -/
def VirtualBlockchain.process_block (vb : VirtualBlockchain) (b : Block) :
    Bool × VirtualBlockchain :=
  if vb.validate_block b then
    (true, { vb with blockchain := vb.blockchain ++ [b] }.update_utxo_with_block b)
  else (false, vb)

/-- Replay loop of `VirtualBlockchain.attempt_reorg`: process candidate
blocks in order, stopping at the first one that fails validation (the
`break`); the candidate's `prev_block_hash` is never examined — the
linkage check in the source is commented out (`#TODO reactivate`). -/
def replayChain : VirtualBlockchain → List Block → VirtualBlockchain
  | vb, [] => vb
  | vb, b :: bs =>
    match vb.process_block b with
    | (true, vb') => replayChain vb' bs
    | (false, vb') => vb'

/-- Rollback loop of `VirtualBlockchain.attempt_reorg`: roll back every
displaced block and record its transactions in `deleted_txs`. -/
def rollbackAll (vb : VirtualBlockchain) (blocks : List Block) :
    VirtualBlockchain :=
  blocks.foldl
    (fun acc b =>
      let acc' := acc.rollback_block b
      { acc' with deleted_txs := acc'.deleted_txs ++ b.transactions })
    vb

/-- `VirtualBlockchain.attempt_reorg`: fetch the candidate branch, compute
the displaced branch, and under the strict length gate roll back and
replay.  `none` models a `ValueError` escaping from
`compute_old_chain_until` (possible only when the local chain is not
hash-linked).  The `prev_block_hash` bookkeeping of the source is dead
code (its use is commented out) and is omitted. -/
def VirtualBlockchain.attempt_reorg (vb : VirtualBlockchain) (h : Nat)
    (sender : Nat → Option Block) (fuel : Nat) : Option VirtualBlockchain :=
  match vb.get_split_hash h sender fuel with
  | (split?, vb1) =>
    if vb1.new_chain.isEmpty then some vb1
    else
      match split? with
      | none => some vb1
      | some split =>
        match vb1.compute_old_chain_until split with
        | none => none
        | some vb2 =>
          if vb2.new_chain.length > vb2.old_chain.length then
            let vb3 := rollbackAll vb2 vb2.old_chain
            some (replayChain vb3 vb3.new_chain)
          else some vb2

/-- A gossip message broadcast by a node to every one of its neighbours:
either a `notify_of_block` with the given hash (from `__propagate_block`)
or an `add_transaction_to_mempool` with the given transaction (from
`__propagate_tx`). -/
inductive Msg : Type where
  | notifyBlock (h : Nat)
  | forwardTx (t : Transaction)
deriving DecidableEq

/-- Local state of a `Node` (`Node.__init__`); the neighbour set is not
part of the state here — outbound gossip is returned as a `List Msg`
instead, one entry standing for the fan-out to all neighbours. -/
structure Node where
  private_key : Nat
  public_key : Nat
  blockchain : List Block
  mempool : List Transaction
  utxo : List Transaction
deriving DecidableEq

/-- `Node.get_latest_hash`: the tip hash, or the genesis sentinel for an
empty chain. -/
def Node.get_latest_hash (n : Node) : Nat :=
  match n.blockchain.getLast? with
  | none => GENESIS_BLOCK_PREV
  | some b => b.get_block_hash

/-- `Node.__is_transaction_valid`: a coinbase never passes; the input must
not occur among the mempool inputs; the input txid must name a utxo
entry; and the signature must verify against that entry's output key. -/
def Node.is_transaction_valid (n : Node) (t : Transaction) : Bool :=
  match t.input with
  | none => false
  | some i =>
    if (n.mempool.map Transaction.input).contains t.input then false
    else
      match n.utxo.find? (fun u => u.get_txid == i) with
      | none => false
      | some u => verify (build_tx_message t) t.signature u.output

/-- `Node.add_transaction_to_mempool`: on success append the transaction
and forward it to every neighbour; on failure change nothing. -/
def Node.add_transaction_to_mempool (n : Node) (t : Transaction) :
    Bool × Node × List Msg :=
  if n.is_transaction_valid t then
    (true, { n with mempool := n.mempool ++ [t] }, [Msg.forwardTx t])
  else (false, n, [])

/-- `new_coin_tx` of `node.py`: a coinbase paying `target`, whose
"signature" stands for the 48 random bytes (passed in as `nonce`). -/
def new_coin_tx (target nonce : Nat) : Transaction :=
  Transaction.mk target none nonce none

/-- The block assembled by `Node.mine_block`: up to `BLOCK_SIZE - 1`
transactions from the front of the mempool plus one fresh coinbase, on
top of the current tip. -/
def Node.minedBlock (n : Node) (nonce : Nat) : Block :=
  let last_index :=
    if n.mempool.length > BLOCK_SIZE - 1 then BLOCK_SIZE - 1 else n.mempool.length
  ⟨n.get_latest_hash, n.mempool.take last_index ++ [new_coin_tx n.public_key nonce]⟩

/-- `Node.mine_block`: append the assembled block, notify the neighbours
of its hash, drop the mined transactions from the mempool, update the
utxo, and return the new tip hash. -/
def Node.mine_block (n : Node) (nonce : Nat) : Nat × Node × List Msg :=
  let last_index :=
    if n.mempool.length > BLOCK_SIZE - 1 then BLOCK_SIZE - 1 else n.mempool.length
  let b := n.minedBlock nonce
  let n' : Node :=
    { n with blockchain := n.blockchain ++ [b],
             mempool := n.mempool.drop last_index,
             utxo := updateUtxoList n.utxo b }
  (n'.get_latest_hash, n', [Msg.notifyBlock b.get_block_hash])

/-- Commit phase of `Node.notify_of_block` (lines 104-110): adopt the
virtual chain and utxo only when the virtual chain is strictly longer
than the local one; then refilter the backed-up mempool against the new
state — with the mempool emptied first, exactly as the source does — and
propagate the new tip. -/
def Node.commit_if_longer (n : Node) (vbf : VirtualBlockchain) :
    Node × List Msg :=
  if vbf.blockchain.length > n.blockchain.length then
    let n1 : Node :=
      { n with blockchain := vbf.blockchain, utxo := vbf.utxo, mempool := [] }
    let n2 : Node :=
      { n1 with mempool := n.mempool.filter (fun t => n1.is_transaction_valid t) }
    (n2, [Msg.notifyBlock
      (match vbf.blockchain.getLast? with
       | some b => b.get_block_hash
       | none => GENESIS_BLOCK_PREV)])
  else (n, [])

/-- `Node.notify_of_block`: run `attempt_reorg` on a virtual copy of the
local chain and utxo and commit the result under the strict length gate.
The sender is modelled by its `get_block` method (`none` = it raised);
`none` overall models the exception escaping `notify_of_block`, which
leaves the node state unchanged. -/
def Node.notify_of_block (n : Node) (h : Nat) (sender : Nat → Option Block)
    (fuel : Nat) : Option (Node × List Msg) :=
  let vb0 : VirtualBlockchain := ⟨n.blockchain, n.utxo, [], [], []⟩
  match vb0.attempt_reorg h sender fuel with
  | none => none
  | some vbf => some (n.commit_if_longer vbf)

/-- `build_message` of `node.py`, serialized for signing in
`create_transaction`; its JSON image coincides with `build_tx_message`
of the transaction being built. -/
def build_message (coin : Transaction) (target : Nat) : Nat :=
  Nat.pair (encodeOpt (some coin.get_txid)) target

/-- `Node.create_transaction`: pick the first utxo entry paying this node
that is not itself a member of the mempool list, sign a spend of it,
record the back-reference, and hand the result to
`add_transaction_to_mempool` (whose verdict is ignored). -/
def Node.create_transaction (n : Node) (target : Nat) :
    Option Transaction × Node × List Msg :=
  match n.utxo.find?
      (fun u => u.output == n.public_key && !(n.mempool.contains u)) with
  | none => (none, n, [])
  | some coin =>
    let sig := sign (build_message coin target) n.private_key
    let t : Transaction := .mk target (some coin.get_txid) sig (some coin)
    match n.add_transaction_to_mempool t with
    | (_, n', msgs) => (some t, n', msgs)

/-- `Node.clear_mempool`: drop every pending transaction. -/
def Node.clear_mempool (n : Node) : Node :=
  { n with mempool := [] }

/-- `Node.get_balance`: the number of utxo entries paying this node. -/
def Node.get_balance (n : Node) : Nat :=
  (n.utxo.filter (fun t => t.output == n.public_key)).length

/-- Hash linkage of the tail of a chain after a given block. -/
def linkedFrom : Block → List Block → Bool
  | _, [] => true
  | b, c :: rest => (c.prev_block_hash == b.get_block_hash) && linkedFrom c rest

/-- Spec predicate "the chain is hash-linked": the first block's
`prev_block_hash` is the genesis sentinel and every later block's
`prev_block_hash` is the hash of its predecessor. -/
def chainLinkedB : List Block → Bool
  | [] => true
  | b :: rest => (b.prev_block_hash == GENESIS_BLOCK_PREV) && linkedFrom b rest

/-- All transactions appearing in blocks of a chain, in order. -/
def outputsOf (chain : List Block) : List Transaction :=
  chain.foldr (fun b acc => b.transactions ++ acc) []

/-- All `input` references of transactions in a chain. -/
def spentOf (chain : List Block) : List (Option Nat) :=
  (outputsOf chain).map Transaction.input

/-- Spec invariant "UTXO soundness": the utxo holds exactly the chain's
outputs that no chain transaction spends (`utxo == outputs(chain) −
inputs(chain)`), as a membership equivalence. -/
def utxoSound (chain : List Block) (utxo : List Transaction) : Prop :=
  ∀ t : Transaction, t ∈ utxo ↔ (t ∈ outputsOf chain ∧ some t.get_txid ∉ spentOf chain)

/-- Sample node: public key `1`, a one-block chain holding its own
coinbase, empty mempool. -/
def cP : Transaction := .mk 1 none 7 none

/-- The sample node's single block. -/
def p0 : Block := ⟨GENESIS_BLOCK_PREV, [cP]⟩

/-- The sample node itself. -/
def nodeP : Node := ⟨1, 1, [p0], [], [cP]⟩

/-- Coinbase of a disjoint single-block peer chain. -/
def cQ : Transaction := .mk 2 none 11 none

/-- Tip of the disjoint single-block peer chain. -/
def q0 : Block := ⟨GENESIS_BLOCK_PREV, [cQ]⟩

/-- `get_block` of a peer owning exactly the chain `[q0]`. -/
def senderQ : Nat → Option Block := fun h =>
  if h == q0.get_block_hash then some q0 else none

/-- First block of a disjoint two-block peer chain. -/
def d0 : Block := ⟨GENESIS_BLOCK_PREV, [Transaction.mk 2 none 11 none]⟩

/-- Second block of the disjoint two-block peer chain. -/
def d1 : Block := ⟨d0.get_block_hash, [Transaction.mk 2 none 13 none]⟩

/-- `get_block` of a peer owning exactly the chain `[d0, d1]`. -/
def senderD : Nat → Option Block := fun h =>
  if h == d1.get_block_hash then some d1
  else if h == d0.get_block_hash then some d0
  else none

/-- C1: the claim states that after every public operation the local
chain is hash-linked.  The code violates it: `compute_old_chain_until`
stops before the chain's first block and the replay's linkage check is
commented out (`#TODO reactivate`), so notifying a node whose linked
chain is `[p0]` about the tip of the disjoint longer chain `[d0, d1]`
commits the chain `[p0, d0, d1]`, in which `d0.prev_block_hash` is the
genesis sentinel and not `hash(p0)`. -/
theorem spec_C1_chain_linkage_broken :
    chainLinkedB nodeP.blockchain = true
    ∧ (nodeP.notify_of_block d1.get_block_hash senderD 5).map
        (fun p => p.1.blockchain) = some [p0, d0, d1]
    ∧ (nodeP.notify_of_block d1.get_block_hash senderD 5).map
        (fun p => chainLinkedB p.1.blockchain) = some false := by
  decide

/-- C2: the claim states that a second `create_transaction` without
intervening mining or clearing returns null when the node owns exactly
one unspent output.  The code instead checks whether the coin itself is
a member of the mempool list (not whether a mempool entry spends it), so
the second call picks the same coin again and returns a (non-null)
transaction — which the mempool then rejects, leaving it unadmitted. -/
theorem spec_C2_double_spend_second_call :
    (nodeP.create_transaction 2).1.isSome = true
    ∧ ((nodeP.create_transaction 2).2.1.create_transaction 2).1.isSome = true
    ∧ ((nodeP.create_transaction 2).2.1.create_transaction 2).2.1.mempool
        = (nodeP.create_transaction 2).2.1.mempool := by
  decide

/-- C4: the claim states that an equal-length candidate (a tie) never
changes chain, utxo or mempool.  On a genesis-level tie the code's
displaced branch misses the chain's first block (`compute_old_chain_until`
stops before it), so the gate compares the 1-block candidate against an
empty displaced branch: a node with chain `[p0]` notified of the
disjoint 1-block chain `[q0]` commits the merged chain `[p0, q0]` and
propagates. -/
theorem spec_C4_tie_reorg_committed :
    (nodeP.notify_of_block q0.get_block_hash senderQ 5).map
      (fun p => p.1.blockchain) = some [p0, q0]
    ∧ (nodeP.notify_of_block q0.get_block_hash senderQ 5).map
        (fun p => p.2.length) = some 1 := by
  decide

/-- C6: if the ancestry walk of a reorg attempt fails — the sender cannot
provide a requested block — the whole attempt is abandoned: the
notified node is returned unchanged and nothing is propagated. -/
theorem spec_C6_fetch_failure_abandons (n : Node) (h : Nat)
    (sender : Nat → Option Block) (fuel : Nat)
    (hfail : getSplitGo n.blockchain sender fuel h [] = none) :
    n.notify_of_block h sender fuel = some (n, []) := by
  simp [Node.notify_of_block, VirtualBlockchain.attempt_reorg,
        VirtualBlockchain.get_split_hash, hfail, Node.commit_if_longer]

/-- C6 witness: a sender that raises on every `get_block`, asked about an
unknown hash, leaves the sample node untouched. -/
theorem spec_C6_fetch_failure_abandons_witness :
    nodeP.notify_of_block 999 (fun _ => none) 5 = some (nodeP, []) :=
  spec_C6_fetch_failure_abandons nodeP 999 (fun _ => none) 5 (by decide)

/-- C9: notifying a node of a hash it already knows — the hash of one of
its own blocks, or the genesis sentinel — is a no-op: the node is
unchanged and nothing is propagated to the neighbours. -/
theorem spec_C9_known_hash_noop (n : Node) (h : Nat)
    (sender : Nat → Option Block) (fuel : Nat)
    (hknown : h = GENESIS_BLOCK_PREV ∨ ∃ b ∈ n.blockchain, b.get_block_hash = h) :
    n.notify_of_block h sender fuel = some (n, []) := by
  have hk : isKnownHash n.blockchain h = true := by
    rcases hknown with rfl | ⟨b, hb, rfl⟩
    · simp [isKnownHash]
    · simp [isKnownHash]
      exact Or.inr ⟨b, hb, rfl⟩
  have hs : getSplitGo n.blockchain sender fuel h [] = some (h, []) := by
    cases fuel <;> simp [getSplitGo, hk]
  simp [Node.notify_of_block, VirtualBlockchain.attempt_reorg,
        VirtualBlockchain.get_split_hash, hs, Node.commit_if_longer]

/-- C9 witness: notifying the sample node of its own tip hash changes
nothing and emits nothing. -/
theorem spec_C9_known_hash_noop_witness :
    nodeP.notify_of_block p0.get_block_hash senderQ 3 = some (nodeP, []) :=
  spec_C9_known_hash_noop nodeP p0.get_block_hash senderQ 3 (by decide)

/-- Every block of the list passes validation at its position when the
replay loop processes the list in order. -/
def replayOkFrom : VirtualBlockchain → List Block → Bool
  | _, [] => true
  | vb, b :: bs =>
    (vb.process_block b).1 && replayOkFrom (vb.process_block b).2 bs

theorem process_block_fst (vb : VirtualBlockchain) (b : Block) :
    (vb.process_block b).1 = vb.validate_block b := by
  by_cases h : vb.validate_block b <;>
    simp [VirtualBlockchain.process_block, h]

theorem process_block_true_chain (vb : VirtualBlockchain) (b : Block)
    (h : vb.validate_block b = true) :
    (vb.process_block b).2.blockchain = vb.blockchain ++ [b] := by
  simp [VirtualBlockchain.process_block, h,
        VirtualBlockchain.update_utxo_with_block]

theorem replayChain_append (vb : VirtualBlockchain) (pre rest : List Block)
    (hok : replayOkFrom vb pre = true) :
    replayChain vb (pre ++ rest) = replayChain (replayChain vb pre) rest := by
  induction pre generalizing vb with
  | nil => simp [replayChain]
  | cons b bs ih =>
    rw [replayOkFrom, Bool.and_eq_true] at hok
    obtain ⟨h1, h2⟩ := hok
    rcases hpb : vb.process_block b with ⟨ok, vb'⟩
    rw [hpb] at h1 h2
    subst h1
    simp only [List.cons_append, replayChain, hpb]
    exact ih vb' h2

theorem replayChain_stop (vb : VirtualBlockchain) (bad : Block)
    (rest : List Block) (hbad : vb.validate_block bad = false) :
    replayChain vb (bad :: rest) = vb := by
  simp [replayChain, VirtualBlockchain.process_block, hbad]

theorem replayChain_chain (vb : VirtualBlockchain) (pre : List Block)
    (hok : replayOkFrom vb pre = true) :
    (replayChain vb pre).blockchain = vb.blockchain ++ pre := by
  induction pre generalizing vb with
  | nil => simp [replayChain]
  | cons b bs ih =>
    rw [replayOkFrom, Bool.and_eq_true] at hok
    obtain ⟨h1, h2⟩ := hok
    rcases hpb : vb.process_block b with ⟨ok, vb'⟩
    have hval : vb.validate_block b = true := by
      rw [← process_block_fst, hpb]
      rw [hpb] at h1
      exact h1
    have hchain : vb'.blockchain = vb.blockchain ++ [b] := by
      have := process_block_true_chain vb b hval
      rw [hpb] at this
      exact this
    rw [hpb] at h1 h2
    subst h1
    simp only [replayChain, hpb]
    rw [ih vb' h2, hchain]
    simp

/-- C3: during reorg replay, the first candidate block failing validation
stops the loop — it and everything after it are discarded while the
prefix processed so far stays appended to the virtual chain — and the
commit gate then adopts that valid prefix as the new local state exactly
when it is strictly longer than the node's chain. -/
theorem spec_C3_replay_truncation (vb : VirtualBlockchain) (pre : List Block)
    (bad : Block) (rest : List Block) (n : Node)
    (hok : replayOkFrom vb pre = true)
    (hbad : (replayChain vb pre).validate_block bad = false) :
    replayChain vb (pre ++ bad :: rest) = replayChain vb pre
    ∧ (replayChain vb pre).blockchain = vb.blockchain ++ pre
    ∧ (n.commit_if_longer (replayChain vb (pre ++ bad :: rest))).1.blockchain
        = if (vb.blockchain ++ pre).length > n.blockchain.length
          then vb.blockchain ++ pre
          else n.blockchain := by
  have h1 : replayChain vb (pre ++ bad :: rest) = replayChain vb pre := by
    rw [replayChain_append vb pre (bad :: rest) hok,
        replayChain_stop _ bad rest hbad]
  have h2 : (replayChain vb pre).blockchain = vb.blockchain ++ pre :=
    replayChain_chain vb pre hok
  refine ⟨h1, h2, ?_⟩
  rw [h1]
  unfold Node.commit_if_longer
  rw [h2]
  by_cases hl : (vb.blockchain ++ pre).length > n.blockchain.length
  · rw [if_pos hl, if_pos hl]
  · rw [if_neg hl, if_neg hl]

/-- A block with two coinbase transactions, hence invalid. -/
def badBlock : Block :=
  ⟨GENESIS_BLOCK_PREV, [Transaction.mk 3 none 5 none, Transaction.mk 3 none 6 none]⟩

/-- The virtual state used by the C3 witness. -/
def vbC3 : VirtualBlockchain := ⟨[p0], [cP], [], [], []⟩

/-- C3 witness: replaying `[q0, badBlock, d0]` over the one-block virtual
chain keeps `q0`, discards `badBlock` and `d0`, and the commit gate
adopts the two-block result over the sample node's one-block chain. -/
theorem spec_C3_replay_truncation_witness :
    replayChain vbC3 ([q0] ++ badBlock :: [d0]) = replayChain vbC3 [q0]
    ∧ (replayChain vbC3 [q0]).blockchain = vbC3.blockchain ++ [q0]
    ∧ (nodeP.commit_if_longer
          (replayChain vbC3 ([q0] ++ badBlock :: [d0]))).1.blockchain
        = if (vbC3.blockchain ++ [q0]).length > nodeP.blockchain.length
          then vbC3.blockchain ++ [q0]
          else nodeP.blockchain :=
  spec_C3_replay_truncation vbC3 [q0] badBlock [d0] nodeP
    (by decide) (by decide)

theorem encodeOpt_inj {a b : Option Nat} (h : encodeOpt a = encodeOpt b) :
    a = b := by
  cases a <;> cases b <;> simp_all [encodeOpt]

/-- Two transactions with the same txid agree on output, input and
signature (the txid encodes exactly those fields). -/
theorem get_txid_inj_core {t1 t2 : Transaction}
    (h : t1.get_txid = t2.get_txid) :
    t1.output = t2.output ∧ t1.input = t2.input ∧ t1.signature = t2.signature := by
  unfold Transaction.get_txid at h
  rw [Nat.pair_eq_pair] at h
  obtain ⟨ho, h2⟩ := h
  rw [Nat.pair_eq_pair] at h2
  exact ⟨ho, encodeOpt_inj h2.1, h2.2⟩

theorem add_tx_fst (n : Node) (t : Transaction) :
    (n.add_transaction_to_mempool t).1 = n.is_transaction_valid t := by
  by_cases h : n.is_transaction_valid t <;>
    simp [Node.add_transaction_to_mempool, h]

/-- C7: `add_transaction_to_mempool` returns true exactly when the input
is present, no mempool entry shares it, some utxo entry carries that
txid, and the signature verifies against that entry's output key; and
the state change and gossip happen exactly on success. -/
theorem spec_C7_mempool_admission (n : Node) (t : Transaction) :
    ((n.add_transaction_to_mempool t).1 = true ↔
      ∃ i, t.input = some i
        ∧ (∀ m ∈ n.mempool, m.input ≠ some i)
        ∧ ∃ u ∈ n.utxo, u.get_txid = i
            ∧ verify (build_tx_message t) t.signature u.output = true)
    ∧ (n.add_transaction_to_mempool t).2
        = if (n.add_transaction_to_mempool t).1
          then ({ n with mempool := n.mempool ++ [t] }, [Msg.forwardTx t])
          else (n, []) := by
  constructor
  · rw [add_tx_fst]
    unfold Node.is_transaction_valid
    cases hin : t.input with
    | none => simp
    | some i =>
      by_cases hc : (n.mempool.map Transaction.input).contains (some i) = true
      · simp only [hc, if_true]
        simp only [List.contains_iff_exists_mem_beq] at hc
        obtain ⟨x, hx, hbeq⟩ := hc
        obtain ⟨m, hm, rfl⟩ := List.mem_map.mp hx
        constructor
        · intro hfalse; exact absurd hfalse (by simp)
        · rintro ⟨i', hi', hall, -⟩
          injection hi' with hi'
          subst hi'
          exact absurd (eq_of_beq hbeq).symm (hall m hm)
      · simp only [Bool.not_eq_true] at hc
        simp only [hc, Bool.false_eq_true, if_false]
        cases hf : n.utxo.find? (fun u => u.get_txid == i) with
        | none =>
          simp only [hf]
          constructor
          · intro hfalse; exact absurd hfalse (by simp)
          · rintro ⟨i', hi', -, u, hu, htx, -⟩
            injection hi' with hi'
            subst hi'
            have := List.find?_eq_none.mp hf u hu
            simp [htx] at this
        | some u =>
          simp only [hf]
          constructor
          · intro hv
            refine ⟨i, rfl, ?_, u, List.mem_of_find?_eq_some hf, ?_, hv⟩
            · intro m hm hmi
              have : (n.mempool.map Transaction.input).contains (some i) = true := by
                simp only [List.contains_iff_exists_mem_beq]
                exact ⟨some i, List.mem_map.mpr ⟨m, hm, hmi⟩, by simp⟩
              rw [this] at hc
              exact absurd hc (by simp)
            · have := List.find?_some hf
              simpa using this
          · rintro ⟨i', hi', -, u', hu', htx', hv'⟩
            injection hi' with hi'
            subst hi'
            have hu_tx : u.get_txid = i := by
              have := List.find?_some hf
              simpa using this
            have houtput : u.output = u'.output :=
              (get_txid_inj_core (hu_tx.trans htx'.symm)).1
            rw [houtput]
            exact hv'
  · by_cases hv : n.is_transaction_valid t <;>
      simp [Node.add_transaction_to_mempool, hv]

theorem take_clamp (l : List Transaction) (m : Nat) :
    l.take (if l.length > m then m else l.length) = l.take m := by
  by_cases h : l.length > m
  · rw [if_pos h]
  · rw [if_neg h, List.take_length]
    exact (List.take_of_length_le (by omega)).symm

theorem drop_clamp (l : List Transaction) (m : Nat) :
    l.drop (if l.length > m then m else l.length) = l.drop m := by
  by_cases h : l.length > m
  · rw [if_pos h]
  · rw [if_neg h, List.drop_length]
    exact (List.drop_eq_nil_of_le (by omega)).symm

/-- C8: `mine_block` assembles a block from the first `BLOCK_SIZE − 1`
mempool transactions plus one fresh coinbase paying the miner, links it
to the previous tip, appends exactly that block, drops exactly the taken
transactions, updates the utxo by adding the block's outputs and
removing its spent inputs, notifies the neighbours, and returns the new
block's hash. -/
theorem spec_C8_mine_block (n : Node) (nonce : Nat) :
    (n.mine_block nonce).1 = (n.minedBlock nonce).get_block_hash
    ∧ (n.mine_block nonce).2.1.blockchain = n.blockchain ++ [n.minedBlock nonce]
    ∧ (n.minedBlock nonce).transactions
        = n.mempool.take (BLOCK_SIZE - 1) ++ [new_coin_tx n.public_key nonce]
    ∧ (n.minedBlock nonce).prev_block_hash = n.get_latest_hash
    ∧ (new_coin_tx n.public_key nonce).input = none
    ∧ (new_coin_tx n.public_key nonce).output = n.public_key
    ∧ (n.mine_block nonce).2.1.mempool = n.mempool.drop (BLOCK_SIZE - 1)
    ∧ n.mempool.take (BLOCK_SIZE - 1) ++ n.mempool.drop (BLOCK_SIZE - 1)
        = n.mempool
    ∧ (∀ u : Transaction,
        u ∈ (n.mine_block nonce).2.1.utxo ↔
          ((u ∈ n.utxo ∨ u ∈ (n.minedBlock nonce).transactions)
            ∧ some u.get_txid ∉ (n.minedBlock nonce).transactions.map
                Transaction.input))
    ∧ (n.mine_block nonce).2.2 = [Msg.notifyBlock (n.minedBlock nonce).get_block_hash] := by
  refine ⟨?_, ?_, ?_, rfl, rfl, rfl, ?_, List.take_append_drop _ _, ?_, rfl⟩
  · show (n.mine_block nonce).1 = _
    unfold Node.mine_block
    simp [Node.get_latest_hash, List.getLast?_concat]
  · rfl
  · unfold Node.minedBlock
    dsimp only
    rw [take_clamp]
  · show Node.mempool _ = _
    unfold Node.mine_block
    dsimp only
    rw [drop_clamp]
  · intro u
    show u ∈ updateUtxoList n.utxo (n.minedBlock nonce) ↔ _
    unfold updateUtxoList
    simp [List.mem_filter]
    tauto

/-- C10: replay never examines a candidate block's `prev_block_hash`:
validation depends only on the transaction list, any block passing
validation is appended by `process_block`, and the replay loop appends
it regardless of whether its `prev_block_hash` matches the virtual tip
(the linkage check in the source is commented out). -/
theorem spec_C10_prev_hash_ignored (vb : VirtualBlockchain) (b1 b2 b : Block)
    (htx : b1.transactions = b2.transactions)
    (hval : vb.validate_block b = true) :
    vb.validate_block b1 = vb.validate_block b2
    ∧ (vb.process_block b).1 = true
    ∧ (vb.process_block b).2.blockchain = vb.blockchain ++ [b]
    ∧ replayChain vb [b] = (vb.process_block b).2 := by
  refine ⟨?_, ?_, process_block_true_chain vb b hval, ?_⟩
  · unfold VirtualBlockchain.validate_block
    rw [htx]
  · rw [process_block_fst]
    exact hval
  · rcases hpb : vb.process_block b with ⟨ok, vb'⟩
    have : ok = true := by
      have hfst := process_block_fst vb b
      rw [hpb] at hfst
      simpa [hval] using hfst
    subst this
    simp [replayChain, hpb]

/-- A copy of `q0` whose `prev_block_hash` matches nothing in any chain
used here. -/
def q0far : Block := ⟨777, [cQ]⟩

/-- C10 witness: `q0` and a copy with a dangling `prev_block_hash`
validate identically, and the dangling-parent copy passing validation is
appended by replay on top of a tip it does not link to. -/
theorem spec_C10_prev_hash_ignored_witness :
    vbC3.validate_block q0 = vbC3.validate_block q0far
    ∧ (vbC3.process_block q0far).1 = true
    ∧ (vbC3.process_block q0far).2.blockchain = vbC3.blockchain ++ [q0far]
    ∧ replayChain vbC3 [q0far] = (vbC3.process_block q0far).2 :=
  spec_C10_prev_hash_ignored vbC3 q0 q0far q0far rfl (by decide)

theorem outputsOf_append (c1 c2 : List Block) :
    outputsOf (c1 ++ c2) = outputsOf c1 ++ outputsOf c2 := by
  induction c1 with
  | nil => simp [outputsOf]
  | cons b bs ih =>
    show b.transactions ++ outputsOf (bs ++ c2)
        = (b.transactions ++ outputsOf bs) ++ outputsOf c2
    rw [ih, List.append_assoc]

theorem outputsOf_single (b : Block) : outputsOf [b] = b.transactions := by
  simp [outputsOf]

theorem spentOf_append (c1 c2 : List Block) :
    spentOf (c1 ++ c2) = spentOf c1 ++ spentOf c2 := by
  unfold spentOf
  rw [outputsOf_append, List.map_append]

theorem mem_spentOf (chain : List Block) (i : Option Nat) :
    i ∈ spentOf chain ↔ ∃ t ∈ outputsOf chain, t.input = i := by
  unfold spentOf
  simp

/-- The `input_tx` back-references of a block's transactions are accurate
with respect to a chain: the back-reference is present exactly for
spends, names the spent txid, and points at a chain output that nothing
in the chain spends. -/
def accurateBackRef (chain : List Block) (t : Transaction) : Prop :=
  t.input_tx.map Transaction.get_txid = t.input
  ∧ ∀ u ∈ t.input_tx.toList,
      u ∈ outputsOf chain ∧ some u.get_txid ∉ spentOf chain

/-- Side conditions under which a block sits honestly on top of a chain:
accurate back-references, fresh txids, no spends of the block by the
chain, no intra-block spends, pairwise distinct inputs inside the block,
pairwise distinct txids in the chain, and the block not already in the
chain.  All hold for blocks assembled by `mine_block` from an admitted
mempool on a sound state. -/
def rollbackHyps (chain : List Block) (b : Block) : Prop :=
  (∀ t ∈ b.transactions, accurateBackRef chain t)
  ∧ (∀ t ∈ b.transactions, ∀ u ∈ outputsOf chain, u.get_txid ≠ t.get_txid)
  ∧ (∀ t ∈ b.transactions, some t.get_txid ∉ spentOf chain)
  ∧ (∀ t ∈ b.transactions, ∀ t' ∈ b.transactions, t'.input ≠ some t.get_txid)
  ∧ b.transactions.Pairwise (fun a c => a.input ≠ c.input)
  ∧ (outputsOf chain).Pairwise (fun a c => a.get_txid ≠ c.get_txid)
  ∧ b ∉ chain

theorem mem_rollbackTxStep (u : List Transaction) (t x : Transaction) :
    x ∈ rollbackTxStep u t ↔
      ((x ∈ u ∧ x.get_txid ≠ t.get_txid ∧ x.input ≠ some t.get_txid)
        ∨ t.input_tx = some x) := by
  unfold rollbackTxStep
  cases hit : t.input_tx with
  | none =>
    simp [List.mem_filter, and_assoc]
  | some it =>
    simp [List.mem_filter, and_assoc]
    constructor
    · rintro (h | rfl)
      · exact Or.inl h
      · exact Or.inr rfl
    · rintro (h | rfl)
      · exact Or.inl h
      · exact Or.inr rfl

theorem removeFirst_append_notmem (l : List Block) (b : Block) (h : b ∉ l) :
    removeFirst (l ++ [b]) b = l := by
  induction l with
  | nil => simp [removeFirst]
  | cons x xs ih =>
    simp only [List.mem_cons, not_or] at h
    simp only [List.cons_append, removeFirst]
    rw [if_neg (fun hxb => h.1 hxb.symm)]
    show x :: removeFirst (xs ++ [b]) b = x :: xs
    rw [ih h.2]

/-- `update_utxo_with_block` preserves UTXO soundness, provided nothing
in the chain already spends the new block's txids. -/
theorem updateUtxo_preserves (chain : List Block) (utxo : List Transaction)
    (b : Block) (hsound : utxoSound chain utxo)
    (hfresh : ∀ t ∈ b.transactions, some t.get_txid ∉ spentOf chain) :
    utxoSound (chain ++ [b]) (updateUtxoList utxo b) := by
  have hsps : spentOf [b] = b.transactions.map Transaction.input := by
    unfold spentOf
    rw [outputsOf_single]
  intro x
  have hx := hsound x
  unfold updateUtxoList
  rw [List.mem_filter, outputsOf_append, outputsOf_single, spentOf_append, hsps]
  constructor
  · rintro ⟨hmem, hker⟩
    have hnotin : some x.get_txid ∉ b.transactions.map Transaction.input := by
      simpa using hker
    rcases List.mem_append.mp hmem with hu | hb
    · have h2 := hx.mp hu
      refine ⟨List.mem_append.mpr (Or.inl h2.1), ?_⟩
      intro hsp
      rcases List.mem_append.mp hsp with h1 | h1
      · exact h2.2 h1
      · exact hnotin h1
    · refine ⟨List.mem_append.mpr (Or.inr hb), ?_⟩
      intro hsp
      rcases List.mem_append.mp hsp with h1 | h1
      · exact hfresh x hb h1
      · exact hnotin h1
  · rintro ⟨hmem, hsp⟩
    have hsp1 : some x.get_txid ∉ spentOf chain := fun h =>
      hsp (List.mem_append.mpr (Or.inl h))
    have hsp2 : some x.get_txid ∉ b.transactions.map Transaction.input := fun h =>
      hsp (List.mem_append.mpr (Or.inr h))
    refine ⟨?_, by simpa using hsp2⟩
    rcases List.mem_append.mp hmem with h1 | h1
    · exact List.mem_append.mpr (Or.inl (hx.mpr ⟨h1, hsp1⟩))
    · exact List.mem_append.mpr (Or.inr h1)

theorem spentOf_single (b : Block) :
    spentOf [b] = b.transactions.map Transaction.input := by
  unfold spentOf
  rw [outputsOf_single]

theorem input_mem_spentOf {chain : List Block} {z : Transaction}
    (hz : z ∈ outputsOf chain) : z.input ∈ spentOf chain :=
  List.mem_map_of_mem Transaction.input hz

theorem pairwise_distinct_inputs {l : List Transaction}
    (h : l.Pairwise (fun a c => a.input ≠ c.input)) {a c : Transaction}
    (ha : a ∈ l) (hc : c ∈ l) (hne : a ≠ c) : a.input ≠ c.input :=
  List.Pairwise.forall (by intro a c hxy he; exact hxy he.symm) h ha hc hne

theorem chain_txid_unique {l : List Transaction}
    (h : l.Pairwise (fun a c => a.get_txid ≠ c.get_txid)) {a c : Transaction}
    (ha : a ∈ l) (hc : c ∈ l) (htx : a.get_txid = c.get_txid) : a = c := by
  by_contra hne
  exact List.Pairwise.forall (by intro a c hxy he; exact hxy he.symm) h ha hc hne htx

theorem accurate_spend {chain : List Block} {t z : Transaction}
    (hacc : accurateBackRef chain t) (hz : t.input_tx = some z) :
    t.input = some z.get_txid ∧ z ∈ outputsOf chain
      ∧ some z.get_txid ∉ spentOf chain := by
  obtain ⟨h1, h2⟩ := hacc
  rw [hz, Option.map_some'] at h1
  have h3 := h2 z (by simp [hz])
  exact ⟨h1.symm, h3.1, h3.2⟩

theorem rollback_fold_char (chain0 : List Block) (b : Block)
    (hyps : rollbackHyps chain0 b) :
    ∀ (R P : List Transaction) (u : List Transaction),
      P ++ R = b.transactions →
      (∀ x, x ∈ u ↔
        ((x ∈ outputsOf (chain0 ++ [b])
            ∧ some x.get_txid ∉ spentOf (chain0 ++ [b]) ∧ x ∉ P)
          ∨ ∃ t ∈ P, t.input_tx = some x)) →
      ∀ x, x ∈ R.foldl rollbackTxStep u ↔
        ((x ∈ outputsOf (chain0 ++ [b])
            ∧ some x.get_txid ∉ spentOf (chain0 ++ [b]) ∧ x ∉ P ++ R)
          ∨ ∃ t ∈ P ++ R, t.input_tx = some x) := by
  obtain ⟨hacc, hfresh, hcausal, hintra, hdistinct, huniq, hnotmem⟩ := hyps
  intro R
  induction R with
  | nil =>
    intro P u hPR hu x
    simpa using hu x
  | cons t R' ih =>
    intro P u hPR hu x
    have htmem : t ∈ b.transactions := by
      rw [← hPR]
      exact List.mem_append.mpr (Or.inr (List.mem_cons_self t R'))
    have hPsub : ∀ y ∈ P, y ∈ b.transactions := fun y hy => by
      rw [← hPR]
      exact List.mem_append.mpr (Or.inl hy)
    have hchain0_txid : ∀ z ∈ outputsOf chain0, z.get_txid ≠ t.get_txid :=
      fun z hz => hfresh t htmem z hz
    have hchain0_input : ∀ z ∈ outputsOf chain0, z.input ≠ some t.get_txid := by
      intro z hz he
      apply hcausal t htmem
      rw [← he]
      exact input_mem_spentOf hz
    have hb_txid : ∀ z ∈ b.transactions, z ≠ t → z.get_txid ≠ t.get_txid := by
      intro z hz hne he
      exact pairwise_distinct_inputs hdistinct hz htmem hne
        (get_txid_inj_core he).2.1
    have hb_input : ∀ z ∈ b.transactions, z.input ≠ some t.get_txid :=
      fun z hz => hintra t htmem z hz
    have hS_filters : ∀ z, z ∈ outputsOf (chain0 ++ [b]) → z ≠ t →
        z.get_txid ≠ t.get_txid ∧ z.input ≠ some t.get_txid := by
      intro z hz hne
      rw [outputsOf_append, outputsOf_single] at hz
      rcases List.mem_append.mp hz with h1 | h1
      · exact ⟨hchain0_txid z h1, hchain0_input z h1⟩
      · exact ⟨hb_txid z h1 hne, hb_input z h1⟩
    have hrestored_filters : ∀ t' z, t' ∈ b.transactions →
        t'.input_tx = some z →
        z.get_txid ≠ t.get_txid ∧ z.input ≠ some t.get_txid := by
      intro t' z ht' hz
      have hspd := accurate_spend (hacc t' ht') hz
      exact ⟨hchain0_txid z hspd.2.1, hchain0_input z hspd.2.1⟩
    have hnew : ∀ z, z ∈ rollbackTxStep u t ↔
        ((z ∈ outputsOf (chain0 ++ [b])
            ∧ some z.get_txid ∉ spentOf (chain0 ++ [b]) ∧ z ∉ P ++ [t])
          ∨ ∃ t' ∈ P ++ [t], t'.input_tx = some z) := by
      intro z
      rw [mem_rollbackTxStep, hu z]
      constructor
      · rintro (⟨⟨hzo, hzs, hznp⟩ | ⟨t', ht', htz⟩, hft, hfi⟩ | hres)
        · left
          refine ⟨hzo, hzs, ?_⟩
          intro hmem
          rcases List.mem_append.mp hmem with h1 | h1
          · exact hznp h1
          · rw [List.mem_singleton] at h1
            subst h1
            exact hft rfl
        · right
          exact ⟨t', List.mem_append.mpr (Or.inl ht'), htz⟩
        · right
          exact ⟨t, List.mem_append.mpr (Or.inr (List.mem_singleton.mpr rfl)), hres⟩
      · rintro (⟨hzo, hzs, hznp⟩ | ⟨t', ht', htz⟩)
        · have hznotP : z ∉ P := fun h =>
            hznp (List.mem_append.mpr (Or.inl h))
          have hzne : z ≠ t := fun h =>
            hznp (List.mem_append.mpr (Or.inr (List.mem_singleton.mpr h)))
          have hf := hS_filters z hzo hzne
          exact Or.inl ⟨Or.inl ⟨hzo, hzs, hznotP⟩, hf.1, hf.2⟩
        · rcases List.mem_append.mp ht' with h1 | h1
          · have hf := hrestored_filters t' z (hPsub t' h1) htz
            exact Or.inl ⟨Or.inr ⟨t', h1, htz⟩, hf.1, hf.2⟩
          · rw [List.mem_singleton] at h1
            subst h1
            exact Or.inr htz
    have heq : (P ++ [t]) ++ R' = P ++ t :: R' := by simp
    have hres := ih (P ++ [t]) (rollbackTxStep u t)
      (by rw [heq]; exact hPR) hnew x
    rw [heq] at hres
    rw [List.foldl_cons]
    exact hres

/-- Rolling back the top block of a sound state removes exactly that
block from the chain and restores exactly the outputs its inputs
consumed: the result is sound for the shortened chain. -/
theorem rollback_block_restores (chain0 : List Block) (b : Block)
    (vb : VirtualBlockchain)
    (hchain : vb.blockchain = chain0 ++ [b])
    (hsound : utxoSound (chain0 ++ [b]) vb.utxo)
    (hyps : rollbackHyps chain0 b) :
    (vb.rollback_block b).blockchain = chain0
    ∧ utxoSound chain0 (vb.rollback_block b).utxo := by
  constructor
  · show removeFirst vb.blockchain b = chain0
    rw [hchain]
    exact removeFirst_append_notmem chain0 b hyps.2.2.2.2.2.2
  · show utxoSound chain0 (b.transactions.foldl rollbackTxStep vb.utxo)
    obtain ⟨hacc, hfresh, hcausal, hintra, hdistinct, huniq, hnotmem⟩ := hyps
    have hchar := rollback_fold_char chain0 b
      ⟨hacc, hfresh, hcausal, hintra, hdistinct, huniq, hnotmem⟩
      b.transactions [] vb.utxo rfl
      (fun x => by simpa using hsound x)
    intro x
    rw [hchar x]
    simp only [List.nil_append]
    constructor
    · rintro (⟨hxo, hxs, hxnot⟩ | ⟨t, ht, htx⟩)
      · rw [outputsOf_append, outputsOf_single] at hxo
        rcases List.mem_append.mp hxo with h1 | h1
        · refine ⟨h1, fun hs => hxs ?_⟩
          rw [spentOf_append]
          exact List.mem_append.mpr (Or.inl hs)
        · exact absurd h1 hxnot
      · have hspd := accurate_spend (hacc t ht) htx
        exact ⟨hspd.2.1, hspd.2.2⟩
    · rintro ⟨hxo, hxs⟩
      by_cases hspent : ∃ t ∈ b.transactions, t.input = some x.get_txid
      · obtain ⟨t, ht, hti⟩ := hspent
        cases hit : t.input_tx with
        | none =>
          exfalso
          have h1 := (hacc t ht).1
          rw [hit, Option.map_none'] at h1
          rw [← h1] at hti
          exact Option.noConfusion hti
        | some u =>
          have hspd := accurate_spend (hacc t ht) hit
          have htxeq : u.get_txid = x.get_txid := by
            have := hspd.1.symm.trans hti
            exact Option.some.inj this
          have hux : u = x := chain_txid_unique huniq hspd.2.1 hxo htxeq
          right
          exact ⟨t, ht, by rw [hit, hux]⟩
      · left
        refine ⟨?_, ?_, ?_⟩
        · rw [outputsOf_append, outputsOf_single]
          exact List.mem_append.mpr (Or.inl hxo)
        · rw [spentOf_append, spentOf_single]
          intro hmem
          rcases List.mem_append.mp hmem with h1 | h1
          · exact hxs h1
          · obtain ⟨t, ht, hti⟩ := List.mem_map.mp h1
            exact hspent ⟨t, ht, hti⟩
        · intro hxts
          exact (hfresh x hxts x hxo) rfl

/-- C5: UTXO soundness (`utxo == outputs(chain) − inputs(chain)`) is
preserved by every state-changing primitive of the code: by
`update_utxo_with_block` when a block is appended (mining and reorg
replay), by `rollback_block` — which restores exactly the outputs the
rolled-back inputs consumed and leaves the state sound for the
shortened chain — and by `mine_block`; the remaining public operations
(`add_transaction_to_mempool`, `create_transaction`, `clear_mempool`)
do not touch chain or utxo at all.  The side conditions
(`rollbackHyps`) state that the block sits honestly on the chain:
accurate `input_tx` back-references, fresh txids, no intra-block or
backward spends — all of which hold for blocks produced by
`mine_block` from an admitted mempool. -/
theorem spec_C5_utxo_soundness (chain : List Block) (utxo : List Transaction)
    (b : Block) (vb : VirtualBlockchain) (n : Node) (t : Transaction)
    (target nonce : Nat)
    (hsound : utxoSound chain utxo)
    (hyps : rollbackHyps chain b)
    (hvb : vb.blockchain = chain ++ [b])
    (hvbu : utxoSound (chain ++ [b]) vb.utxo)
    (hnsound : utxoSound n.blockchain n.utxo)
    (hnhyps : rollbackHyps n.blockchain (n.minedBlock nonce)) :
    utxoSound (chain ++ [b]) (updateUtxoList utxo b)
    ∧ (vb.rollback_block b).blockchain = chain
    ∧ utxoSound chain (vb.rollback_block b).utxo
    ∧ utxoSound (n.mine_block nonce).2.1.blockchain
        (n.mine_block nonce).2.1.utxo
    ∧ (n.add_transaction_to_mempool t).2.1.blockchain = n.blockchain
    ∧ (n.add_transaction_to_mempool t).2.1.utxo = n.utxo
    ∧ (n.create_transaction target).2.1.blockchain = n.blockchain
    ∧ (n.create_transaction target).2.1.utxo = n.utxo
    ∧ n.clear_mempool.blockchain = n.blockchain
    ∧ n.clear_mempool.utxo = n.utxo := by
  have hroll := rollback_block_restores chain b vb hvb hvbu hyps
  have haddframe : ∀ (m : Node) (tx : Transaction),
      (m.add_transaction_to_mempool tx).2.1.blockchain = m.blockchain
      ∧ (m.add_transaction_to_mempool tx).2.1.utxo = m.utxo := by
    intro m tx
    by_cases hv : m.is_transaction_valid tx <;>
      simp [Node.add_transaction_to_mempool, hv]
  have hcreate : (n.create_transaction target).2.1.blockchain = n.blockchain
      ∧ (n.create_transaction target).2.1.utxo = n.utxo := by
    unfold Node.create_transaction
    cases hf : n.utxo.find?
        (fun u => u.output == n.public_key && !(n.mempool.contains u)) with
    | none => exact ⟨rfl, rfl⟩
    | some coin => exact ⟨(haddframe n _).1, (haddframe n _).2⟩
  refine ⟨updateUtxo_preserves chain utxo b hsound hyps.2.2.1,
    hroll.1, hroll.2, ?_, (haddframe n t).1, (haddframe n t).2,
    hcreate.1, hcreate.2, rfl, rfl⟩
  show utxoSound (n.blockchain ++ [n.minedBlock nonce])
    (updateUtxoList n.utxo (n.minedBlock nonce))
  exact updateUtxo_preserves n.blockchain n.utxo (n.minedBlock nonce)
    hnsound hnhyps.2.2.1

instance (chain : List Block) (t : Transaction) :
    Decidable (accurateBackRef chain t) := by
  unfold accurateBackRef
  infer_instance

instance (chain : List Block) (b : Block) :
    Decidable (rollbackHyps chain b) := by
  unfold rollbackHyps
  infer_instance

/-- UTXO soundness of the sample node's one-block state. -/
theorem utxoSound_p0 : utxoSound [p0] [cP] := by
  intro x
  have h1 : outputsOf [p0] = [cP] := rfl
  have h2 : spentOf [p0] = [none] := rfl
  rw [h1, h2]
  simp

/-- A spend of the sample coinbase, with an accurate back-reference. -/
def t1C5 : Transaction := .mk 2 (some cP.get_txid) 5 (some cP)

/-- A fresh coinbase for the C5 witness block. -/
def cb1C5 : Transaction := .mk 1 none 9 none

/-- A block spending the sample coinbase on top of the sample chain. -/
def b1C5 : Block := ⟨p0.get_block_hash, [t1C5, cb1C5]⟩

/-- Virtual state after appending `b1C5` to the sample chain. -/
def vbC5 : VirtualBlockchain :=
  ⟨[p0] ++ [b1C5], updateUtxoList [cP] b1C5, [], [], []⟩

/-- C5 witness: the preservation theorem applied to the concrete
one-block state, the concrete spending block, and the sample node. -/
theorem spec_C5_utxo_soundness_witness :
    utxoSound ([p0] ++ [b1C5]) (updateUtxoList [cP] b1C5)
    ∧ (vbC5.rollback_block b1C5).blockchain = [p0]
    ∧ utxoSound [p0] (vbC5.rollback_block b1C5).utxo
    ∧ utxoSound (nodeP.mine_block 9).2.1.blockchain
        (nodeP.mine_block 9).2.1.utxo
    ∧ (nodeP.add_transaction_to_mempool t1C5).2.1.blockchain = nodeP.blockchain
    ∧ (nodeP.add_transaction_to_mempool t1C5).2.1.utxo = nodeP.utxo
    ∧ (nodeP.create_transaction 2).2.1.blockchain = nodeP.blockchain
    ∧ (nodeP.create_transaction 2).2.1.utxo = nodeP.utxo
    ∧ nodeP.clear_mempool.blockchain = nodeP.blockchain
    ∧ nodeP.clear_mempool.utxo = nodeP.utxo :=
  spec_C5_utxo_soundness [p0] [cP] b1C5 vbC5 nodeP t1C5 2 9
    utxoSound_p0 (by decide) rfl
    (updateUtxo_preserves [p0] [cP] b1C5 utxoSound_p0 (by decide))
    utxoSound_p0 (by decide)

end Ex2
